import Mathlib

/-
Verification of the PowerTasker mobile app's key-vault, signing, registry and
status-polling logic, shallowly embedded from the TypeScript sources
(app/add-device.tsx, app/sign-send.tsx, app/edit-device.tsx, app/index.tsx).

Strings are modelled as `List Char`, byte buffers as `List Nat` with an
explicit `< 256` bound where it matters.  Cryptographic primitives provided by
external libraries (CryptoJS PBKDF2, the AES-256 block cipher, SHA-256,
HMAC-SHA-256, the secp256k1 scalar multiplication and the per-nonce signature
attempt) are taken as function parameters; everything the repository itself
computes around them (padding, CBC chaining, hex/base64/UTF-8 codecs, the
blob wire format, the RFC6979-style nonce loop, the registry operations and
the timestamp handling) is embedded concretely.
-/

namespace PowerTasker

/-! ## Hex codec (add-device.tsx `bytesToHex`, CryptoJS.enc.Hex.parse) -/

/-- Lowercase hex digit characters, as produced by JS `Number.toString(16)`. -/
def hexDigitChar (n : Nat) : Char :=
  "0123456789abcdef".data.getD n '0'

/-- `bytesToHex` from add-device.tsx: each byte becomes
`byte.toString(16).padStart(2, "0")`, faithful for bytes below 256. -/
def bytesToHex : List Nat → List Char
  | [] => []
  | b :: bs => hexDigitChar (b / 16) :: hexDigitChar (b % 16) :: bytesToHex bs

/-- Value of one hex character, as JS `parseInt(c, 16)` computes it on the
characters CryptoJS.enc.Hex.parse feeds it (0-9, a-f, A-F). -/
def hexCharVal (c : Char) : Nat :=
  if 48 ≤ c.toNat ∧ c.toNat ≤ 57 then c.toNat - 48
  else if 97 ≤ c.toNat ∧ c.toNat ≤ 102 then c.toNat - 87
  else if 65 ≤ c.toNat ∧ c.toNat ≤ 70 then c.toNat - 55
  else 0

/-- CryptoJS.enc.Hex.parse / `Buffer.from(s, "hex")`: consume the string two
characters at a time, producing one byte per pair. -/
def hexParse : List Char → List Nat
  | c1 :: c2 :: rest => (hexCharVal c1 * 16 + hexCharVal c2) :: hexParse rest
  | _ => []

theorem hexCharVal_hexDigitChar {n : Nat} (h : n < 16) :
    hexCharVal (hexDigitChar n) = n := by
  have h16 : ∀ m : Fin 16, hexCharVal (hexDigitChar m.val) = m.val := by decide
  exact h16 ⟨n, h⟩

theorem hexParse_bytesToHex {l : List Nat} (h : ∀ b ∈ l, b < 256) :
    hexParse (bytesToHex l) = l := by
  induction l with
  | nil => rfl
  | cons b bs ih =>
    have hb : b < 256 := h b (List.mem_cons_self b bs)
    have h1 : b / 16 < 16 := by omega
    have h2 : b % 16 < 16 := by omega
    simp only [bytesToHex, hexParse, hexCharVal_hexDigitChar h1,
      hexCharVal_hexDigitChar h2, List.cons.injEq]
    constructor
    · omega
    · exact ih (fun x hx => h x (List.mem_cons_of_mem b hx))

theorem bytesToHex_length (l : List Nat) :
    (bytesToHex l).length = 2 * l.length := by
  induction l with
  | nil => rfl
  | cons b bs ih => simp [bytesToHex, ih]; omega

/-! ## ASCII fragment of the CryptoJS UTF-8 codec

The private keys handled by the app are 64-character hex strings, so the
UTF-8 conversions in the source only ever see ASCII data; the codec is
embedded on that domain.  `asciiDecode?` returns `none` on a byte ≥ 128,
mirroring the `Malformed UTF-8 data` exception path of
`decrypted.toString(CryptoJS.enc.Utf8)` (caught in decryptPrivateKey). -/

def asciiEncode (s : List Char) : List Nat :=
  s.map Char.toNat

def asciiDecode? (l : List Nat) : Option (List Char) :=
  if l.all (fun b => b < 128) then some (l.map Char.ofNat) else none

theorem asciiDecode_asciiEncode {s : List Char} (h : ∀ c ∈ s, c.toNat < 128) :
    asciiDecode? (asciiEncode s) = some s := by
  unfold asciiDecode? asciiEncode
  rw [if_pos]
  · congr 1
    rw [List.map_map]
    have hid : ∀ c ∈ s, (Char.ofNat ∘ Char.toNat) c = id c := by
      intro c _
      exact Char.ofNat_toNat c
    rw [List.map_congr_left hid, List.map_id]
  · simp only [List.all_eq_true, List.mem_map, decide_eq_true_eq]
    rintro b ⟨c, hc, rfl⟩
    exact h c hc

/-! ## Base64 codec (CryptoJS.enc.Base64) -/

def base64Chars : List Char :=
  "ABCDEFGHIJKLMNOPQRSTUVWXYZabcdefghijklmnopqrstuvwxyz0123456789+/".data

def sextetChar (n : Nat) : Char :=
  base64Chars.getD n 'A'

def sextetVal (c : Char) : Nat :=
  base64Chars.indexOf c

/-- CryptoJS Base64 stringify: three input bytes become four alphabet
characters; a trailing group of one or two bytes is padded with `=`. -/
def b64Encode : List Nat → List Char
  | [] => []
  | [a] => [sextetChar (a / 4), sextetChar (a % 4 * 16), '=', '=']
  | [a, b] => [sextetChar (a / 4), sextetChar (a % 4 * 16 + b / 16),
      sextetChar (b % 16 * 4), '=']
  | a :: b :: c :: rest =>
    sextetChar (a / 4) :: sextetChar (a % 4 * 16 + b / 16) ::
      sextetChar (b % 16 * 4 + c / 64) :: sextetChar (c % 64) :: b64Encode rest

/-- Decode a base64 string with the `=` padding already stripped. -/
def b64DecodeCore : List Char → List Nat
  | [c1, c2] => [sextetVal c1 * 4 + sextetVal c2 / 16]
  | [c1, c2, c3] => [sextetVal c1 * 4 + sextetVal c2 / 16,
      sextetVal c2 % 16 * 16 + sextetVal c3 / 4]
  | c1 :: c2 :: c3 :: c4 :: rest =>
    (sextetVal c1 * 4 + sextetVal c2 / 16) ::
      (sextetVal c2 % 16 * 16 + sextetVal c3 / 4) ::
      (sextetVal c3 % 4 * 64 + sextetVal c4) :: b64DecodeCore rest
  | _ => []

/-- CryptoJS Base64 parse: stop at the first `=`, then decode sextet groups. -/
def b64Decode (s : List Char) : List Nat :=
  b64DecodeCore (s.takeWhile (fun c => c ≠ '='))

theorem sextetVal_sextetChar {n : Nat} (h : n < 64) :
    sextetVal (sextetChar n) = n := by
  have h64 : ∀ m : Fin 64, sextetVal (sextetChar m.val) = m.val := by decide
  exact h64 ⟨n, h⟩

theorem sextetChar_ne_eq {n : Nat} (h : n < 64) :
    sextetChar n ≠ '=' := by
  have h64 : ∀ m : Fin 64, sextetChar m.val ≠ '=' := by decide
  exact h64 ⟨n, h⟩

theorem b64Decode_b64Encode {l : List Nat} (h : ∀ b ∈ l, b < 256) :
    b64Decode (b64Encode l) = l := by
  induction l using b64Encode.induct with
  | case1 => rfl
  | case2 a =>
    have ha : a < 256 := h a (by simp)
    have h1 : a / 4 < 64 := by omega
    have h2 : a % 4 * 16 < 64 := by omega
    unfold b64Encode b64Decode
    rw [List.takeWhile_cons_of_pos (by simp [sextetChar_ne_eq h1]),
      List.takeWhile_cons_of_pos (by simp [sextetChar_ne_eq h2]),
      List.takeWhile_cons_of_neg (by simp)]
    unfold b64DecodeCore
    rw [sextetVal_sextetChar h1, sextetVal_sextetChar h2]
    congr 1
    omega
  | case3 a b =>
    have ha : a < 256 := h a (by simp)
    have hb : b < 256 := h b (by simp)
    have h1 : a / 4 < 64 := by omega
    have h2 : a % 4 * 16 + b / 16 < 64 := by omega
    have h3 : b % 16 * 4 < 64 := by omega
    unfold b64Encode b64Decode
    rw [List.takeWhile_cons_of_pos (by simp [sextetChar_ne_eq h1]),
      List.takeWhile_cons_of_pos (by simp [sextetChar_ne_eq h2]),
      List.takeWhile_cons_of_pos (by simp [sextetChar_ne_eq h3]),
      List.takeWhile_cons_of_neg (by simp)]
    unfold b64DecodeCore
    rw [sextetVal_sextetChar h1, sextetVal_sextetChar h2, sextetVal_sextetChar h3]
    simp only [List.cons.injEq, and_true]
    constructor
    · omega
    · omega
  | case4 a b c rest ih =>
    have ha : a < 256 := h a (by simp)
    have hb : b < 256 := h b (by simp)
    have hc : c < 256 := h c (by simp)
    have hrest : ∀ x ∈ rest, x < 256 := by
      intro x hx
      exact h x (by simp [hx])
    have h1 : a / 4 < 64 := by omega
    have h2 : a % 4 * 16 + b / 16 < 64 := by omega
    have h3 : b % 16 * 4 + c / 64 < 64 := by omega
    have h4 : c % 64 < 64 := by omega
    have hstep : b64Encode (a :: b :: c :: rest) =
        sextetChar (a / 4) :: sextetChar (a % 4 * 16 + b / 16) ::
          sextetChar (b % 16 * 4 + c / 64) :: sextetChar (c % 64) ::
          b64Encode rest := by
      rfl
    unfold b64Decode
    rw [hstep,
      List.takeWhile_cons_of_pos (by simp [sextetChar_ne_eq h1]),
      List.takeWhile_cons_of_pos (by simp [sextetChar_ne_eq h2]),
      List.takeWhile_cons_of_pos (by simp [sextetChar_ne_eq h3]),
      List.takeWhile_cons_of_pos (by simp [sextetChar_ne_eq h4])]
    unfold b64DecodeCore
    rw [sextetVal_sextetChar h1, sextetVal_sextetChar h2,
      sextetVal_sextetChar h3, sextetVal_sextetChar h4]
    unfold b64Decode at ih
    rw [ih hrest]
    simp only [List.cons.injEq, and_true]
    refine ⟨by omega, by omega, by omega⟩

/-! ## PKCS7 padding and CBC mode (CryptoJS.pad.Pkcs7, CryptoJS.mode.CBC)

The AES-256 block transformation itself is an external primitive and is
passed in as the parameters `E` (encrypt one 16-byte block under a key) and
`D` (its inverse).  The padding and chaining around it are embedded here. -/

/-- CryptoJS `Pkcs7.pad`: append `16 - len % 16` copies of that count
(a full extra block when the length is already a multiple of 16). -/
def pkcs7Pad (l : List Nat) : List Nat :=
  l ++ List.replicate (16 - l.length % 16) (16 - l.length % 16)

/-- CryptoJS `Pkcs7.unpad`: read the final byte and drop that many bytes
from the end, without validating the padding. -/
def pkcs7UnpadTrunc (l : List Nat) : List Nat :=
  l.take (l.length - l.getLastD 0)

/-- Bytewise xor of two buffers. -/
def zipXor (a b : List Nat) : List Nat :=
  List.zipWith (fun x y => x ^^^ y) a b

/-- Split a buffer into successive 16-byte blocks. -/
def toBlocks : List Nat → List (List Nat)
  | [] => []
  | x :: xs => (x :: xs).take 16 :: toBlocks ((x :: xs).drop 16)
termination_by l => l.length
decreasing_by simp; omega

def flattenBlocks : List (List Nat) → List Nat
  | [] => []
  | b :: bs => b ++ flattenBlocks bs

/-- CBC encryption over a block list: each plaintext block is xored with the
previous ciphertext block (initially the IV) and then enciphered. -/
def cbcEncBlocks (E : List Nat → List Nat → List Nat) (key : List Nat) :
    List Nat → List (List Nat) → List (List Nat)
  | _, [] => []
  | prev, p :: ps =>
    E key (zipXor p prev) :: cbcEncBlocks E key (E key (zipXor p prev)) ps

/-- CBC decryption over a block list. -/
def cbcDecBlocks (D : List Nat → List Nat → List Nat) (key : List Nat) :
    List Nat → List (List Nat) → List (List Nat)
  | _, [] => []
  | prev, c :: cs => zipXor (D key c) prev :: cbcDecBlocks D key c cs

/-- AES-256-CBC/PKCS7 encryption as CryptoJS performs it with a raw
`WordArray` key: pad, chunk into blocks, chain. -/
def cbcEncrypt (E : List Nat → List Nat → List Nat)
    (key iv plain : List Nat) : List Nat :=
  flattenBlocks (cbcEncBlocks E key iv (toBlocks (pkcs7Pad plain)))

/-- AES-256-CBC/PKCS7 decryption as CryptoJS performs it: chunk, chain,
then truncate by the count in the final byte. -/
def cbcDecrypt (D : List Nat → List Nat → List Nat)
    (key iv ct : List Nat) : List Nat :=
  pkcs7UnpadTrunc (flattenBlocks (cbcDecBlocks D key iv (toBlocks ct)))

theorem pkcs7UnpadTrunc_pkcs7Pad (l : List Nat) :
    pkcs7UnpadTrunc (pkcs7Pad l) = l := by
  have hk : 1 ≤ 16 - l.length % 16 := by omega
  unfold pkcs7Pad pkcs7UnpadTrunc
  have hrep : (List.replicate (16 - l.length % 16) (16 - l.length % 16)) ≠
      ([] : List Nat) := by
    simp [List.replicate]
    omega
  rw [List.getLastD_eq_getLast?, List.getLast?_append]
  have hlast : (List.replicate (16 - l.length % 16)
      (16 - l.length % 16)).getLast? = some (16 - l.length % 16) := by
    rw [List.getLast?_replicate]
    simp
    omega
  rw [hlast]
  simp only [Option.or_some, Option.getD_some, List.length_append,
    List.length_replicate]
  have hlen : l.length + (16 - l.length % 16) - (16 - l.length % 16) =
      l.length := by omega
  rw [hlen, List.take_left]

theorem flattenBlocks_toBlocks (l : List Nat) :
    flattenBlocks (toBlocks l) = l := by
  induction l using toBlocks.induct with
  | case1 => simp [toBlocks, flattenBlocks]
  | case2 x xs ih =>
    rw [toBlocks]
    unfold flattenBlocks
    rw [ih, List.take_append_drop]

theorem toBlocks_flattenBlocks {bs : List (List Nat)}
    (h : ∀ b ∈ bs, b.length = 16) :
    toBlocks (flattenBlocks bs) = bs := by
  induction bs with
  | nil => simp [toBlocks, flattenBlocks]
  | cons b rest ih =>
    have hb : b.length = 16 := h b (List.mem_cons_self b rest)
    have hnil : b ≠ [] := by
      intro hc
      rw [hc] at hb
      simp at hb
    obtain ⟨x, xs, rfl⟩ := List.exists_cons_of_ne_nil hnil
    show toBlocks ((x :: xs) ++ flattenBlocks rest) = (x :: xs) :: rest
    rw [List.cons_append, toBlocks]
    have h1 : (x :: (xs ++ flattenBlocks rest)).take 16 = x :: xs := by
      rw [← List.cons_append]
      rw [← hb, List.take_left]
    have h2 : (x :: (xs ++ flattenBlocks rest)).drop 16 = flattenBlocks rest := by
      rw [← List.cons_append]
      rw [← hb, List.drop_left]
    rw [h1, h2, ih (fun d hd => h d (List.mem_cons_of_mem (x :: xs) hd))]

theorem toBlocks_block_length {l : List Nat} (h : 16 ∣ l.length) :
    ∀ b ∈ toBlocks l, b.length = 16 := by
  induction l using toBlocks.induct with
  | case1 => simp [toBlocks]
  | case2 x xs ih =>
    intro b hb
    rw [toBlocks] at hb
    have hlen : 16 ≤ (x :: xs).length := by
      rcases h with ⟨k, hk⟩
      simp at hk ⊢
      omega
    rcases List.mem_cons.mp hb with h1 | h2
    · rw [h1, List.length_take]
      omega
    · refine ih ?_ b h2
      rcases h with ⟨k, hk⟩
      rw [List.length_drop, hk]
      exact ⟨k - 1, by omega⟩

theorem toBlocks_block_bytes {l : List Nat} (h : ∀ x ∈ l, x < 256) :
    ∀ b ∈ toBlocks l, ∀ x ∈ b, x < 256 := by
  induction l using toBlocks.induct with
  | case1 => simp [toBlocks]
  | case2 y ys ih =>
    intro b hb x hx
    rw [toBlocks] at hb
    rcases List.mem_cons.mp hb with h1 | h2
    · exact h x (List.mem_of_mem_take (h1 ▸ hx))
    · exact ih (fun z hz => h z (List.mem_of_mem_drop hz)) b h2 x hx

theorem zipXor_length (a b : List Nat) :
    (zipXor a b).length = min a.length b.length := by
  simp [zipXor]

theorem zipXor_bytes {a b : List Nat} (ha : ∀ x ∈ a, x < 256)
    (hb : ∀ x ∈ b, x < 256) : ∀ x ∈ zipXor a b, x < 256 := by
  induction a generalizing b with
  | nil => simp [zipXor]
  | cons x xs ih =>
    cases b with
    | nil => simp [zipXor]
    | cons y ys =>
      intro z hz
      rcases List.mem_cons.mp hz with h1 | h2
      · rw [h1]
        have hx : x < 2 ^ 8 := ha x (List.mem_cons_self x xs)
        have hy : y < 2 ^ 8 := hb y (List.mem_cons_self y ys)
        exact Nat.xor_lt_two_pow hx hy
      · exact ih (fun u hu => ha u (List.mem_cons_of_mem x hu))
          (fun u hu => hb u (List.mem_cons_of_mem y hu)) z h2

theorem zipXor_cancel {a b : List Nat} (h : a.length ≤ b.length) :
    zipXor (zipXor a b) b = a := by
  induction a generalizing b with
  | nil => simp [zipXor]
  | cons x xs ih =>
    cases b with
    | nil => simp at h
    | cons y ys =>
      show (x ^^^ y ^^^ y) :: zipXor (zipXor xs ys) ys = x :: xs
      rw [Nat.xor_assoc, Nat.xor_self, Nat.xor_zero]
      rw [ih (by simpa using Nat.le_of_succ_le_succ (by simpa using h))]

theorem pkcs7Pad_dvd (l : List Nat) : 16 ∣ (pkcs7Pad l).length := by
  unfold pkcs7Pad
  rw [List.length_append, List.length_replicate]
  omega

theorem pkcs7Pad_bytes {l : List Nat} (h : ∀ x ∈ l, x < 256) :
    ∀ x ∈ pkcs7Pad l, x < 256 := by
  intro x hx
  unfold pkcs7Pad at hx
  rcases List.mem_append.mp hx with h1 | h2
  · exact h x h1
  · have := List.eq_of_mem_replicate h2
    omega

theorem flattenBlocks_bytes {bs : List (List Nat)}
    (h : ∀ b ∈ bs, ∀ x ∈ b, x < 256) :
    ∀ x ∈ flattenBlocks bs, x < 256 := by
  induction bs with
  | nil => simp [flattenBlocks]
  | cons b rest ih =>
    intro x hx
    rcases List.mem_append.mp hx with h1 | h2
    · exact h b (List.mem_cons_self b rest) x h1
    · exact ih (fun d hd => h d (List.mem_cons_of_mem b hd)) x h2

theorem cbcEncBlocks_length (E : List Nat → List Nat → List Nat)
    (key : List Nat)
    (hElen : ∀ k b, b.length = 16 → (E k b).length = 16) :
    ∀ (prev : List Nat) (blocks : List (List Nat)), prev.length = 16 →
      (∀ b ∈ blocks, b.length = 16) →
      ∀ c ∈ cbcEncBlocks E key prev blocks, c.length = 16 := by
  intro prev blocks
  induction blocks generalizing prev with
  | nil => simp [cbcEncBlocks]
  | cons p ps ih =>
    intro hprev hb c hc
    have hp : p.length = 16 := hb p (List.mem_cons_self p ps)
    have hxlen : (zipXor p prev).length = 16 := by
      rw [zipXor_length, hp, hprev]
      omega
    have hclen : (E key (zipXor p prev)).length = 16 := hElen key _ hxlen
    rw [cbcEncBlocks] at hc
    rcases List.mem_cons.mp hc with h1 | h2
    · rw [h1]
      exact hclen
    · exact ih _ hclen (fun d hd => hb d (List.mem_cons_of_mem p hd)) c h2

theorem cbcEncBlocks_bytes (E : List Nat → List Nat → List Nat)
    (key : List Nat)
    (hElen : ∀ k b, b.length = 16 → (E k b).length = 16)
    (hEbyte : ∀ k b, b.length = 16 → (∀ x ∈ b, x < 256) →
      ∀ x ∈ E k b, x < 256) :
    ∀ (prev : List Nat) (blocks : List (List Nat)),
      prev.length = 16 → (∀ x ∈ prev, x < 256) →
      (∀ b ∈ blocks, b.length = 16 ∧ ∀ x ∈ b, x < 256) →
      ∀ c ∈ cbcEncBlocks E key prev blocks, ∀ x ∈ c, x < 256 := by
  intro prev blocks
  induction blocks generalizing prev with
  | nil => simp [cbcEncBlocks]
  | cons p ps ih =>
    intro hprev hprevB hb c hc
    obtain ⟨hp, hpB⟩ := hb p (List.mem_cons_self p ps)
    have hxlen : (zipXor p prev).length = 16 := by
      rw [zipXor_length, hp, hprev]
      omega
    have hxB : ∀ x ∈ zipXor p prev, x < 256 := zipXor_bytes hpB hprevB
    have hcB : ∀ x ∈ E key (zipXor p prev), x < 256 := hEbyte key _ hxlen hxB
    have hclen : (E key (zipXor p prev)).length = 16 := hElen key _ hxlen
    rw [cbcEncBlocks] at hc
    rcases List.mem_cons.mp hc with h1 | h2
    · intro x hx
      exact hcB x (h1 ▸ hx)
    · exact ih _ hclen hcB (fun d hd => hb d (List.mem_cons_of_mem p hd)) c h2

theorem cbcDecBlocks_cbcEncBlocks
    (E D : List Nat → List Nat → List Nat) (key : List Nat)
    (hED : ∀ k b, b.length = 16 → (∀ x ∈ b, x < 256) → D k (E k b) = b)
    (hElen : ∀ k b, b.length = 16 → (E k b).length = 16)
    (hEbyte : ∀ k b, b.length = 16 → (∀ x ∈ b, x < 256) →
      ∀ x ∈ E k b, x < 256) :
    ∀ (prev : List Nat) (blocks : List (List Nat)),
      prev.length = 16 → (∀ x ∈ prev, x < 256) →
      (∀ b ∈ blocks, b.length = 16 ∧ ∀ x ∈ b, x < 256) →
      cbcDecBlocks D key prev (cbcEncBlocks E key prev blocks) = blocks := by
  intro prev blocks
  induction blocks generalizing prev with
  | nil => simp [cbcEncBlocks, cbcDecBlocks]
  | cons p ps ih =>
    intro hprev hprevB hb
    obtain ⟨hp, hpB⟩ := hb p (List.mem_cons_self p ps)
    have hxlen : (zipXor p prev).length = 16 := by
      rw [zipXor_length, hp, hprev]
      omega
    have hxB : ∀ x ∈ zipXor p prev, x < 256 := zipXor_bytes hpB hprevB
    rw [cbcEncBlocks, cbcDecBlocks]
    rw [hED key _ hxlen hxB]
    rw [zipXor_cancel (by omega)]
    rw [ih _ (hElen key _ hxlen) (hEbyte key _ hxlen hxB)
      (fun d hd => hb d (List.mem_cons_of_mem p hd))]

/-- CBC/PKCS7 round trip: decrypting with the inverse block transformation
recovers the plaintext. -/
theorem cbcDecrypt_cbcEncrypt
    (E D : List Nat → List Nat → List Nat) (key iv plain : List Nat)
    (hED : ∀ k b, b.length = 16 → (∀ x ∈ b, x < 256) → D k (E k b) = b)
    (hElen : ∀ k b, b.length = 16 → (E k b).length = 16)
    (hEbyte : ∀ k b, b.length = 16 → (∀ x ∈ b, x < 256) →
      ∀ x ∈ E k b, x < 256)
    (hiv : iv.length = 16) (hivB : ∀ x ∈ iv, x < 256)
    (hplain : ∀ x ∈ plain, x < 256) :
    cbcDecrypt D key iv (cbcEncrypt E key iv plain) = plain := by
  unfold cbcEncrypt cbcDecrypt
  have hpadB : ∀ x ∈ pkcs7Pad plain, x < 256 := pkcs7Pad_bytes hplain
  have hblocks : ∀ b ∈ toBlocks (pkcs7Pad plain),
      b.length = 16 ∧ ∀ x ∈ b, x < 256 := by
    intro b hbmem
    exact ⟨toBlocks_block_length (pkcs7Pad_dvd plain) b hbmem,
      toBlocks_block_bytes hpadB b hbmem⟩
  have henc : ∀ c ∈ cbcEncBlocks E key iv (toBlocks (pkcs7Pad plain)),
      c.length = 16 :=
    cbcEncBlocks_length E key hElen iv _ hiv
      (fun b hbmem => (hblocks b hbmem).1)
  rw [toBlocks_flattenBlocks henc]
  rw [cbcDecBlocks_cbcEncBlocks E D key hED hElen hEbyte iv _ hiv hivB hblocks]
  rw [flattenBlocks_toBlocks, pkcs7UnpadTrunc_pkcs7Pad]

/-! ## Vault (add-device.tsx `encryptPrivateKey`,
sign-send.tsx `decryptPrivateKey`)

PBKDF2 is an external primitive, passed in as `pbkdf2`; both sides invoke it
with the same PIN normalisation (`padStart(6, "0")`), `keySize` 8 words and
1000 iterations, exactly as the source does. -/

/-- JS `String.prototype.padStart(n, "0")`. -/
def padStartZeros (s : List Char) (n : Nat) : List Char :=
  List.replicate (n - s.length) '0' ++ s

/-- The ciphertext `encrypted.toString()` produced inside `encryptPrivateKey`:
AES-256-CBC/PKCS7 of the UTF-8 private-key string under the PBKDF2-derived
key, before base64 encoding. -/
def vaultCiphertext (E : List Nat → List Nat → List Nat)
    (pbkdf2 : List Char → List Nat → Nat → Nat → List Nat)
    (privKey pinCode : List Char) (saltBytes ivBytes : List Nat) : List Nat :=
  cbcEncrypt E (pbkdf2 (padStartZeros pinCode 6) saltBytes 8 1000) ivBytes
    (asciiEncode privKey)

/-- `encryptPrivateKey` from add-device.tsx, with the freshly generated 16-byte
salt and IV made explicit parameters (the source draws them from
`Crypto.getRandomBytesAsync(16)`): derive the key by PBKDF2 over the padded
PIN, AES-256-CBC/PKCS7 encrypt, and emit `hex(salt) ++ hex(iv) ++ base64(ct)`. -/
def encryptPrivateKey (E : List Nat → List Nat → List Nat)
    (pbkdf2 : List Char → List Nat → Nat → Nat → List Nat)
    (privKey pinCode : List Char) (saltBytes ivBytes : List Nat) : List Char :=
  bytesToHex saltBytes ++ (bytesToHex ivBytes ++
    b64Encode (vaultCiphertext E pbkdf2 privKey pinCode saltBytes ivBytes))

/-- `decryptPrivateKey` from sign-send.tsx: split the blob at character
positions 32 and 64, parse salt and IV from hex and the ciphertext from
base64, re-derive the key and AES-256-CBC/PKCS7 decrypt; `none` models the
caught malformed-UTF-8 exception path. -/
def decryptPrivateKey (D : List Nat → List Nat → List Nat)
    (pbkdf2 : List Char → List Nat → Nat → Nat → List Nat)
    (encryptedPrivKey pinCode : List Char) : Option (List Char) :=
  asciiDecode? (cbcDecrypt D
    (pbkdf2 (padStartZeros pinCode 6) (hexParse (encryptedPrivKey.take 32))
      8 1000)
    (hexParse ((encryptedPrivKey.drop 32).take 32))
    (b64Decode (encryptedPrivKey.drop 64)))

theorem blob_take_32 {saltBytes ivBytes : List Nat} {rest : List Char}
    (hs : saltBytes.length = 16) :
    (bytesToHex saltBytes ++ (bytesToHex ivBytes ++ rest)).take 32 =
      bytesToHex saltBytes := by
  have h1 : (bytesToHex saltBytes).length = 32 := by
    rw [bytesToHex_length, hs]
  rw [← h1, List.take_left]

theorem blob_drop_32 {saltBytes ivBytes : List Nat} {rest : List Char}
    (hs : saltBytes.length = 16) :
    (bytesToHex saltBytes ++ (bytesToHex ivBytes ++ rest)).drop 32 =
      bytesToHex ivBytes ++ rest := by
  have h1 : (bytesToHex saltBytes).length = 32 := by
    rw [bytesToHex_length, hs]
  rw [← h1, List.drop_left]

theorem blob_parts {saltBytes ivBytes : List Nat} {rest : List Char}
    (hs : saltBytes.length = 16) (hi : ivBytes.length = 16) :
    (bytesToHex saltBytes ++ (bytesToHex ivBytes ++ rest)).take 32 =
        bytesToHex saltBytes ∧
      ((bytesToHex saltBytes ++ (bytesToHex ivBytes ++ rest)).drop 32).take 32 =
        bytesToHex ivBytes ∧
      (bytesToHex saltBytes ++ (bytesToHex ivBytes ++ rest)).drop 64 =
        rest := by
  have h1 : (bytesToHex saltBytes).length = 32 := by
    rw [bytesToHex_length, hs]
  have h2 : (bytesToHex ivBytes).length = 32 := by
    rw [bytesToHex_length, hi]
  refine ⟨blob_take_32 hs, ?_, ?_⟩
  · rw [blob_drop_32 hs, ← h2, List.take_left]
  · have h64 : (64 : Nat) = 32 + 32 := by omega
    rw [h64, ← List.drop_drop, blob_drop_32 hs, ← h2, List.drop_left]

/-- Hex character, in terms of the character code: the shape enforced by the
`^[0-9a-fA-F]{64}$` checks guarding every private-key input. -/
def isHexCharCode (c : Char) : Prop :=
  (48 ≤ c.toNat ∧ c.toNat ≤ 57) ∨ (97 ≤ c.toNat ∧ c.toNat ≤ 102) ∨
    (65 ≤ c.toNat ∧ c.toNat ≤ 70)

/-- Decimal digit character, the shape enforced by the `^\d{6}$` PIN checks. -/
def isDigitCharCode (c : Char) : Prop :=
  48 ≤ c.toNat ∧ c.toNat ≤ 57

theorem isHexCharCode_lt_128 {c : Char} (h : isHexCharCode c) :
    c.toNat < 128 := by
  rcases h with h | h | h <;> omega

theorem vaultCiphertext_bytes
    (E : List Nat → List Nat → List Nat)
    (pbkdf2 : List Char → List Nat → Nat → Nat → List Nat)
    (privKey pinCode : List Char) (saltBytes ivBytes : List Nat)
    (hElen : ∀ k b, b.length = 16 → (E k b).length = 16)
    (hEbyte : ∀ k b, b.length = 16 → (∀ x ∈ b, x < 256) →
      ∀ x ∈ E k b, x < 256)
    (hkeyHex : ∀ c ∈ privKey, isHexCharCode c)
    (hiv : ivBytes.length = 16) (hivB : ∀ x ∈ ivBytes, x < 256) :
    ∀ x ∈ vaultCiphertext E pbkdf2 privKey pinCode saltBytes ivBytes,
      x < 256 := by
  have hplainB : ∀ x ∈ asciiEncode privKey, x < 256 := by
    intro x hx
    rcases List.mem_map.mp hx with ⟨c, hc, rfl⟩
    have := isHexCharCode_lt_128 (hkeyHex c hc)
    omega
  unfold vaultCiphertext cbcEncrypt
  apply flattenBlocks_bytes
  apply cbcEncBlocks_bytes E _ hElen hEbyte _ _ hiv hivB
  intro b hb
  exact ⟨toBlocks_block_length (pkcs7Pad_dvd _) b hb,
    toBlocks_block_bytes (pkcs7Pad_bytes hplainB) b hb⟩

/-- Claim C1: for every 64-hex-character private key and every 6-digit PIN,
decrypting the blob produced by `encryptPrivateKey` with the same PIN
returns the original private-key string.  The PBKDF2 primitive is an
arbitrary function (both sides call it with the embedded salt, 8-word key
size and 1000 iterations); the AES-256 block transformation is an arbitrary
pair `E`/`D` such that `D` inverts `E` on 16-byte blocks — the property the
AES library provides. -/
theorem vault_roundtrip
    (E D : List Nat → List Nat → List Nat)
    (pbkdf2 : List Char → List Nat → Nat → Nat → List Nat)
    (privKey pinCode : List Char) (saltBytes ivBytes : List Nat)
    (hED : ∀ k b, b.length = 16 → (∀ x ∈ b, x < 256) → D k (E k b) = b)
    (hElen : ∀ k b, b.length = 16 → (E k b).length = 16)
    (hEbyte : ∀ k b, b.length = 16 → (∀ x ∈ b, x < 256) →
      ∀ x ∈ E k b, x < 256)
    (hkeyLen : privKey.length = 64)
    (hkeyHex : ∀ c ∈ privKey, isHexCharCode c)
    (hpinLen : pinCode.length = 6)
    (hpinDigits : ∀ c ∈ pinCode, isDigitCharCode c)
    (hsalt : saltBytes.length = 16) (hsaltB : ∀ x ∈ saltBytes, x < 256)
    (hiv : ivBytes.length = 16) (hivB : ∀ x ∈ ivBytes, x < 256) :
    decryptPrivateKey D pbkdf2
      (encryptPrivateKey E pbkdf2 privKey pinCode saltBytes ivBytes) pinCode =
      some privKey := by
  have hctB : ∀ x ∈ vaultCiphertext E pbkdf2 privKey pinCode saltBytes ivBytes,
      x < 256 :=
    vaultCiphertext_bytes E pbkdf2 privKey pinCode saltBytes ivBytes
      hElen hEbyte hkeyHex hiv hivB
  obtain ⟨hpart1, hpart2, hpart3⟩ :=
    @blob_parts saltBytes ivBytes
      (b64Encode (vaultCiphertext E pbkdf2 privKey pinCode saltBytes
        ivBytes)) hsalt hiv
  unfold decryptPrivateKey encryptPrivateKey
  rw [hpart1, hpart2, hpart3]
  rw [hexParse_bytesToHex hsaltB, hexParse_bytesToHex hivB]
  rw [b64Decode_b64Encode hctB]
  unfold vaultCiphertext
  rw [cbcDecrypt_cbcEncrypt E D _ _ _ hED hElen hEbyte hiv hivB]
  · apply asciiDecode_asciiEncode
    intro c hc
    exact isHexCharCode_lt_128 (hkeyHex c hc)
  · intro x hx
    rcases List.mem_map.mp hx with ⟨c, hc, rfl⟩
    have := isHexCharCode_lt_128 (hkeyHex c hc)
    omega

/-- Claim C7: the encrypted blob is exactly `hex(salt)` (32 hex characters)
followed by `hex(iv)` (32 hex characters) followed by the base64 ciphertext,
and the decrypt path's slices `[0,32)`, `[32,64)`, `[64,end)` recover the
same salt bytes, IV bytes and ciphertext. -/
theorem blob_wire_format
    (E : List Nat → List Nat → List Nat)
    (pbkdf2 : List Char → List Nat → Nat → Nat → List Nat)
    (privKey pinCode : List Char) (saltBytes ivBytes : List Nat)
    (hElen : ∀ k b, b.length = 16 → (E k b).length = 16)
    (hEbyte : ∀ k b, b.length = 16 → (∀ x ∈ b, x < 256) →
      ∀ x ∈ E k b, x < 256)
    (hkeyHex : ∀ c ∈ privKey, isHexCharCode c)
    (hsalt : saltBytes.length = 16) (hsaltB : ∀ x ∈ saltBytes, x < 256)
    (hiv : ivBytes.length = 16) (hivB : ∀ x ∈ ivBytes, x < 256) :
    encryptPrivateKey E pbkdf2 privKey pinCode saltBytes ivBytes =
        bytesToHex saltBytes ++ (bytesToHex ivBytes ++
          b64Encode (vaultCiphertext E pbkdf2 privKey pinCode saltBytes
            ivBytes)) ∧
      (bytesToHex saltBytes).length = 32 ∧
      (bytesToHex ivBytes).length = 32 ∧
      hexParse ((encryptPrivateKey E pbkdf2 privKey pinCode saltBytes
        ivBytes).take 32) = saltBytes ∧
      hexParse (((encryptPrivateKey E pbkdf2 privKey pinCode saltBytes
        ivBytes).drop 32).take 32) = ivBytes ∧
      b64Decode ((encryptPrivateKey E pbkdf2 privKey pinCode saltBytes
        ivBytes).drop 64) =
        vaultCiphertext E pbkdf2 privKey pinCode saltBytes ivBytes := by
  have hctB : ∀ x ∈ vaultCiphertext E pbkdf2 privKey pinCode saltBytes ivBytes,
      x < 256 :=
    vaultCiphertext_bytes E pbkdf2 privKey pinCode saltBytes ivBytes
      hElen hEbyte hkeyHex hiv hivB
  obtain ⟨hpart1, hpart2, hpart3⟩ :=
    @blob_parts saltBytes ivBytes
      (b64Encode (vaultCiphertext E pbkdf2 privKey pinCode saltBytes
        ivBytes)) hsalt hiv
  unfold encryptPrivateKey
  refine ⟨rfl, ?_, ?_, ?_, ?_, ?_⟩
  · rw [bytesToHex_length, hsalt]
  · rw [bytesToHex_length, hiv]
  · rw [hpart1, hexParse_bytesToHex hsaltB]
  · rw [hpart2, hexParse_bytesToHex hivB]
  · rw [hpart3, b64Decode_b64Encode hctB]

/-! ## KeyPair (noble/secp256k1 `getPublicKey` point serialisation)

The secp256k1 scalar multiplication is an external primitive: `scalarMultBase`
maps the private-key bytes to the affine coordinates of the public point.
What the library then does with the point — and what the two call sites
disagree on — is the serialisation, embedded here: noble v2's
`getPublicKey(priv, isCompressed = true)` defaults to the 33-byte compressed
encoding, while `getPublicKey(priv, false)` yields the 65-byte uncompressed
`04 ‖ X ‖ Y` encoding. -/

/-- Big-endian 32-byte encoding of a 256-bit number (`numberToBytesBE`). -/
def numTo32 (n : Nat) : List Nat :=
  (List.range 32).map (fun i => n / 256 ^ (31 - i) % 256)

/-- noble/secp256k1 v2 `getPublicKey`: serialise the public point compressed
(default) or uncompressed. -/
def getPublicKey (scalarMultBase : List Nat → Nat × Nat)
    (privKeyBytes : List Nat) (isCompressed : Bool) : List Nat :=
  if isCompressed then
    (if (scalarMultBase privKeyBytes).2 % 2 = 0 then 2 else 3) ::
      numTo32 (scalarMultBase privKeyBytes).1
  else
    4 :: (numTo32 (scalarMultBase privKeyBytes).1 ++
      numTo32 (scalarMultBase privKeyBytes).2)

/-- `getPublicKey` from add-device.tsx (the registration path): parse the hex
key to bytes, call `secp256k1.getPublicKey(privKeyBytes, false)` — explicitly
uncompressed — and hex-encode the result.  This is the string stored as the
device's `pubkey`. -/
def registrationPubkeyHex (scalarMultBase : List Nat → Nat × Nat)
    (privKeyHex : List Char) : List Char :=
  bytesToHex (getPublicKey scalarMultBase (hexParse privKeyHex) false)

/-- The `publicKeyHex` computed in sign-send.tsx `signCommand`:
`"04" + Buffer.from(secp256k1.getPublicKey(privateKeyBytes)).toString("hex")`
— note the call leaves `isCompressed` at its default `true`. -/
def signPublicKeyHex (scalarMultBase : List Nat → Nat × Nat)
    (privateKeyHex : List Char) : List Char :=
  '0' :: '4' :: bytesToHex (getPublicKey scalarMultBase
    (hexParse privateKeyHex) true)

theorem numTo32_length (n : Nat) : (numTo32 n).length = 32 := by
  simp [numTo32]

/-! ## CommandSigner (sign-send.tsx `signCommand`, the `etc.hmacSha256Sync`
shim, and the noble v2 deterministic nonce loop)

SHA-256 and HMAC-SHA-256 are external primitives (`sha256`, `hmac` — CryptoJS
argument order: message first, key second).  `k2sig` stands for noble's
per-nonce signature attempt (point arithmetic producing `some (r, s)` or
rejecting the candidate nonce).  `rng` models the ambient random source that
noble would consult only when `extraEntropy` asks for it; the app's call
`secp256k1.sign(messageHash, privateKeyBytes)` leaves `extraEntropy` unset. -/

/-- The `extraEntropy` option of noble v2 `sign`: absent (default), `true`
(draw 32 random bytes), or caller-supplied bytes. -/
inductive EntropyOpt where
  | noEntropy
  | randomEntropy
  | bytes (e : List Nat)

/-- noble v2 `sign` options, with its defaults. -/
structure SignOpts where
  lowS : Bool := true
  extraEntropy : EntropyOpt := EntropyOpt.noEntropy

def entropyBytes (opts : SignOpts) (rng : Nat → List Nat) : List Nat :=
  match opts.extraEntropy with
  | EntropyOpt.noEntropy => []
  | EntropyOpt.randomEntropy => rng 32
  | EntropyOpt.bytes e => e

/-- The `etc.hmacSha256Sync` shim installed at the top of sign-send.tsx:
concatenate the key with all messages into one word array, then HMAC it
under the key. -/
def hmacShim (hmac : List Nat → List Nat → List Nat)
    (key : List Nat) (messages : List (List Nat)) : List Nat :=
  hmac (key ++ flattenBlocks messages) key

/-- One reseed of noble's HMAC-DRBG with the given seed material. -/
def drbgReseed (h : List Nat → List (List Nat) → List Nat)
    (k v seed : List Nat) : List Nat × List Nat :=
  let k1 := h k [v, [0], seed]
  let v1 := h k1 [v]
  let k2 := h k1 [v1, [1], seed]
  let v2 := h k2 [v1]
  (k2, v2)

/-- noble's HMAC-DRBG generate loop: produce a candidate, test it with
`pred`, reseed and retry on rejection; the library gives up after 1000
iterations. -/
def drbgLoop (h : List Nat → List (List Nat) → List Nat)
    (pred : List Nat → Option (Nat × Nat)) :
    List Nat → List Nat → Nat → Option (Nat × Nat)
  | _, _, 0 => none
  | k, v, fuel + 1 =>
    match pred (h k [v]) with
    | some r => some r
    | none =>
      drbgLoop h pred (h k [h k [v], [0]]) (h (h k [h k [v], [0]]) [h k [v]])
        fuel

/-- noble v2 `sign`: seed the DRBG with the private key, the message hash and
any extra entropy, then run the nonce loop; `k2sig` is the per-nonce
signature attempt. -/
def signECDSA (hmac : List Nat → List Nat → List Nat)
    (k2sig : List Nat → List Nat → List Nat → Option (Nat × Nat))
    (privKeyBytes msgHash : List Nat) (opts : SignOpts)
    (rng : Nat → List Nat) : Option (Nat × Nat) :=
  drbgReseed (hmacShim hmac) (List.replicate 32 0) (List.replicate 32 1)
    (privKeyBytes ++ msgHash ++ entropyBytes opts rng) |>
    (fun kv => drbgLoop (hmacShim hmac) (k2sig privKeyBytes msgHash)
      kv.1 kv.2 1000)

structure SignResult where
  publicKeyHex : List Char
  signatureHex : List Char
  command : List Char
deriving DecidableEq

/-- `signCommand` from sign-send.tsx: hex-decode the private key, UTF-8 encode
the command, SHA-256 it (via a hex round trip through CryptoJS), sign the
hash with noble's deterministic scheme (default options — no extra entropy),
and return the compact `r ‖ s` signature in hex together with the
`"04"`-prefixed public key. -/
def signCommand (hmac : List Nat → List Nat → List Nat)
    (k2sig : List Nat → List Nat → List Nat → Option (Nat × Nat))
    (scalarMultBase : List Nat → Nat × Nat)
    (sha256 : List Nat → List Nat)
    (command privateKeyHex : List Char) (rng : Nat → List Nat) :
    Option SignResult :=
  match signECDSA hmac k2sig (hexParse privateKeyHex)
    (hexParse (bytesToHex (sha256 (asciiEncode command)))) {} rng with
  | none => none
  | some rs =>
    some { publicKeyHex := signPublicKeyHex scalarMultBase privateKeyHex,
           signatureHex := bytesToHex (numTo32 rs.1 ++ numTo32 rs.2),
           command := command }

/-- Claim C2: signing is deterministic — the result of `signCommand` on a
fixed command string and private key does not depend on the ambient random
source, because the app's call leaves noble's `extraEntropy` at its default
and the nonce comes solely from the HMAC-SHA256-based DRBG over the private
key and message hash. -/
theorem signCommand_deterministic
    (hmac : List Nat → List Nat → List Nat)
    (k2sig : List Nat → List Nat → List Nat → Option (Nat × Nat))
    (scalarMultBase : List Nat → Nat × Nat)
    (sha256 : List Nat → List Nat)
    (command privateKeyHex : List Char) (rng1 rng2 : Nat → List Nat) :
    signCommand hmac k2sig scalarMultBase sha256 command privateKeyHex rng1 =
      signCommand hmac k2sig scalarMultBase sha256 command privateKeyHex
        rng2 := rfl

/-- Claim C3 (the code bug): the `publicKeyHex` field built in
sign-send.tsx is `"04"` prepended to the hex of the *compressed* 33-byte
point encoding (noble v2's default), so it is 68 hex characters long, while
the registration path stores the uncompressed 130-hex-character encoding;
for every private key the two strings differ, contradicting the claimed
consistency. -/
theorem sign_pubkey_encoding_bug
    (scalarMultBase : List Nat → Nat × Nat) (privateKeyHex : List Char) :
    (signPublicKeyHex scalarMultBase privateKeyHex).length = 68 ∧
      (registrationPubkeyHex scalarMultBase privateKeyHex).length = 130 ∧
      signPublicKeyHex scalarMultBase privateKeyHex ≠
        registrationPubkeyHex scalarMultBase privateKeyHex := by
  have h1 : (signPublicKeyHex scalarMultBase privateKeyHex).length = 68 := by
    unfold signPublicKeyHex getPublicKey
    simp only [if_true]
    by_cases hy : (scalarMultBase (hexParse privateKeyHex)).2 % 2 = 0 <;>
      simp [hy, bytesToHex_length, numTo32_length]
  have h2 : (registrationPubkeyHex scalarMultBase privateKeyHex).length =
      130 := by
    unfold registrationPubkeyHex getPublicKey
    simp [bytesToHex_length, numTo32_length]
  refine ⟨h1, h2, ?_⟩
  intro heq
  rw [heq, h2] at h1
  omega

/-! ## Command construction (sign-send.tsx `handleSign`)

The source formats the current instant as
`date.toISOString().replace(/[-:.TZ]/g, "").slice(0, 14)`, aborts when the
result is not 14 characters, and builds `action + "+" + timestamp`.  A UTC
instant is modelled by its broken-down calendar fields; `toISOString` is JS
`Date.prototype.toISOString` on the years 0–9999 where it emits the 24-char
`YYYY-MM-DDTHH:mm:ss.sssZ` form. -/

structure Instant where
  year : Nat
  month : Nat
  day : Nat
  hour : Nat
  minute : Nat
  second : Nat
  ms : Nat

/-- One decimal digit character (of `n mod 10`). -/
def digitChar (n : Nat) : Char :=
  Char.ofNat (48 + n % 10)

/-- Fixed-width two-digit decimal rendering (exact for values below 100). -/
def pad2 (n : Nat) : List Char :=
  [digitChar (n / 10), digitChar n]

/-- Fixed-width three-digit decimal rendering (exact below 1000). -/
def pad3 (n : Nat) : List Char :=
  [digitChar (n / 100), digitChar (n / 10), digitChar n]

/-- Fixed-width four-digit decimal rendering (exact below 10000). -/
def pad4 (n : Nat) : List Char :=
  [digitChar (n / 1000), digitChar (n / 100), digitChar (n / 10), digitChar n]

/-- JS `Date.prototype.toISOString` for years 0–9999:
`YYYY-MM-DDTHH:mm:ss.sssZ`. -/
def toISOString (t : Instant) : List Char :=
  pad4 t.year ++ '-' :: pad2 t.month ++ '-' :: pad2 t.day ++
    'T' :: pad2 t.hour ++ ':' :: pad2 t.minute ++ ':' :: pad2 t.second ++
    '.' :: pad3 t.ms ++ ['Z']

/-- The `replace(/[-:.TZ]/g, "")` step: delete every occurrence of the five
separator characters. -/
def stripSeparators : List Char → List Char
  | [] => []
  | c :: rest =>
    if c = '-' ∨ c = ':' ∨ c = '.' ∨ c = 'T' ∨ c = 'Z' then
      stripSeparators rest
    else c :: stripSeparators rest

/-- The `currentTime` string of `handleSign`: strip the separators from the
ISO string and keep the first 14 characters. -/
def currentTimeString (t : Instant) : List Char :=
  (stripSeparators (toISOString t)).take 14

/-- The pure `YYYYMMDDHHMMSS` rendering of an instant. -/
def timestampDigits (t : Instant) : List Char :=
  pad4 t.year ++ pad2 t.month ++ pad2 t.day ++ pad2 t.hour ++
    pad2 t.minute ++ pad2 t.second

/-- `handleSign`'s command construction: abort (`none`) when the formatted
time is not exactly 14 characters, otherwise build
`action + "+" + currentTime`. -/
def buildCommand (action : List Char) (t : Instant) : Option (List Char) :=
  if (currentTimeString t).length = 14 then
    some (action ++ '+' :: currentTimeString t)
  else none

/-- The closed action set offered by the manage-device.tsx picker. -/
def actionSet : List (List Char) :=
  ["signout".data, "shutdown".data, "restart".data, "sleep".data]

theorem digitChar_mod (n : Nat) : digitChar n = digitChar (n % 10) := by
  unfold digitChar
  rw [Nat.mod_mod_of_dvd n (by omega)]

theorem digitChar_ne_sep (n : Nat) :
    ¬(digitChar n = '-' ∨ digitChar n = ':' ∨ digitChar n = '.' ∨
      digitChar n = 'T' ∨ digitChar n = 'Z') := by
  have h : ∀ m : Fin 10, ¬(digitChar m.val = '-' ∨ digitChar m.val = ':' ∨
      digitChar m.val = '.' ∨ digitChar m.val = 'T' ∨
      digitChar m.val = 'Z') := by decide
  rw [digitChar_mod]
  exact h ⟨n % 10, Nat.mod_lt n (by omega)⟩

theorem digitChar_isDigit (n : Nat) : (digitChar n).isDigit = true := by
  have h : ∀ m : Fin 10, (digitChar m.val).isDigit = true := by decide
  rw [digitChar_mod]
  exact h ⟨n % 10, Nat.mod_lt n (by omega)⟩

theorem strip_digit (n : Nat) (rest : List Char) :
    stripSeparators (digitChar n :: rest) =
      digitChar n :: stripSeparators rest := by
  simp only [stripSeparators]
  rw [if_neg (digitChar_ne_sep n)]

theorem strip_dash (rest : List Char) :
    stripSeparators ('-' :: rest) = stripSeparators rest := by
  simp [stripSeparators]

theorem strip_colon (rest : List Char) :
    stripSeparators (':' :: rest) = stripSeparators rest := by
  simp [stripSeparators]

theorem strip_dot (rest : List Char) :
    stripSeparators ('.' :: rest) = stripSeparators rest := by
  simp [stripSeparators]

theorem strip_letterT (rest : List Char) :
    stripSeparators ('T' :: rest) = stripSeparators rest := by
  simp [stripSeparators]

theorem strip_letterZ (rest : List Char) :
    stripSeparators ('Z' :: rest) = stripSeparators rest := by
  simp [stripSeparators]

theorem stripSeparators_toISOString (t : Instant) :
    stripSeparators (toISOString t) = timestampDigits t ++ pad3 t.ms := by
  unfold toISOString timestampDigits pad4 pad3 pad2
  simp only [List.cons_append, List.nil_append, List.append_assoc]
  simp only [strip_digit, strip_dash, strip_colon, strip_dot,
    strip_letterT, strip_letterZ]
  rfl

theorem timestampDigits_length (t : Instant) :
    (timestampDigits t).length = 14 := by
  simp [timestampDigits, pad4, pad2]

/-- Claim C8: for every instant with year at most 9999 and every action in
the closed set, the stripped-and-truncated timestamp is exactly the 14
ASCII-digit `YYYYMMDDHHMMSS` rendering of the instant, the 14-character
guard passes, and the signed command string is `action + "+" + timestamp`. -/
theorem command_construction (action : List Char) (t : Instant)
    (haction : action ∈ actionSet)
    (hyear : t.year ≤ 9999) (hmonth : t.month ≤ 12) (hday : t.day ≤ 31)
    (hhour : t.hour ≤ 23) (hminute : t.minute ≤ 59)
    (hsecond : t.second ≤ 59) (hms : t.ms ≤ 999) :
    currentTimeString t = timestampDigits t ∧
      (currentTimeString t).length = 14 ∧
      (∀ c ∈ currentTimeString t, c.isDigit = true) ∧
      buildCommand action t = some (action ++ '+' :: timestampDigits t) := by
  have hstrip : currentTimeString t = timestampDigits t := by
    unfold currentTimeString
    rw [stripSeparators_toISOString, ← timestampDigits_length t,
      List.take_left]
  have hlen : (currentTimeString t).length = 14 := by
    rw [hstrip, timestampDigits_length]
  refine ⟨hstrip, hlen, ?_, ?_⟩
  · intro c hc
    rw [hstrip] at hc
    unfold timestampDigits pad4 pad2 at hc
    simp only [List.cons_append, List.nil_append, List.mem_cons,
      List.not_mem_nil, or_false] at hc
    rcases hc with rfl | rfl | rfl | rfl | rfl | rfl | rfl | rfl | rfl |
      rfl | rfl | rfl | rfl | rfl <;> exact digitChar_isDigit _
  · unfold buildCommand
    rw [if_pos hlen, hstrip]

/-! ## DeviceRegistry (add-device.tsx `saveDevice`, edit-device.tsx
`saveChanges` / `deleteDevice`)

Each registry mutation reads the whole devices.json collection, transforms it
in memory and writes it back; the embedded operations are those in-memory
transformations together with the decision whether a write happens at all. -/

structure Device where
  pubkey : List Char
  deviceName : List Char
  relayUrl : List Char
  encryptedPrivKey : List Char
deriving DecidableEq

inductive AddError where
  | duplicateName
  | duplicatePubkey
deriving DecidableEq

/-- The registry core of `saveDevice` in add-device.tsx: reject when an
existing device shares the `deviceName` (checked first) or the `pubkey`;
otherwise append the new record.  On rejection the function returns before
`FileSystem.writeAsStringAsync`, so nothing is persisted. -/
def addDevice (devices : List Device) (d : Device) :
    Except AddError (List Device) :=
  if devices.any (fun dev => dev.deviceName = d.deviceName) then
    Except.error AddError.duplicateName
  else if devices.any (fun dev => dev.pubkey = d.pubkey) then
    Except.error AddError.duplicatePubkey
  else
    Except.ok (devices ++ [d])

/-- The device collection on disk after a `saveDevice` attempt: the appended
collection on success, the previously loaded collection untouched on
rejection. -/
def persistedAfterAdd (devices : List Device) (d : Device) : List Device :=
  match addDevice devices d with
  | Except.ok newDevices => newDevices
  | Except.error _ => devices

/-- The `devices.map` transformation of `saveChanges` in edit-device.tsx:
replace `deviceName` and `relayUrl` on every record whose `pubkey` matches,
keep all other records (and all other fields) unchanged. -/
def updateDevice (devices : List Device) (pk newName newUrl : List Char) :
    List Device :=
  devices.map (fun d =>
    if d.pubkey = pk then
      { d with deviceName := newName, relayUrl := newUrl }
    else d)

/-- Outcome of an update as the spec describes it; the source's `saveChanges`
never produces `notFound` — it unconditionally writes the mapped collection
and reports success. -/
inductive UpdateResult where
  | success (devices : List Device)
  | notFound
deriving DecidableEq

/-- `saveChanges` from edit-device.tsx (after input validation): map over the
collection and write the result, always reporting success. -/
def saveChanges (devices : List Device) (pk newName newUrl : List Char) :
    UpdateResult :=
  UpdateResult.success (updateDevice devices pk newName newUrl)

/-- The `devices.filter` transformation of `deleteDevice` in
edit-device.tsx. -/
def removeDevice (devices : List Device) (pk : List Char) : List Device :=
  devices.filter (fun d => ¬d.pubkey = pk)

/-- Registry states reachable from the empty collection through the three
mutations the app performs (successful adds, edits, deletes). -/
inductive Reachable : List Device → Prop where
  | empty : Reachable []
  | add {s s' : List Device} {d : Device} : Reachable s →
      addDevice s d = Except.ok s' → Reachable s'
  | update {s : List Device} (pk newName newUrl : List Char) :
      Reachable s → Reachable (updateDevice s pk newName newUrl)
  | remove {s : List Device} (pk : List Char) :
      Reachable s → Reachable (removeDevice s pk)

theorem updateDevice_map_pubkey (devices : List Device)
    (pk newName newUrl : List Char) :
    (updateDevice devices pk newName newUrl).map Device.pubkey =
      devices.map Device.pubkey := by
  unfold updateDevice
  rw [List.map_map]
  apply List.map_congr_left
  intro d _
  by_cases hd : d.pubkey = pk <;> simp [hd]

theorem updateDevice_map_encryptedPrivKey (devices : List Device)
    (pk newName newUrl : List Char) :
    (updateDevice devices pk newName newUrl).map Device.encryptedPrivKey =
      devices.map Device.encryptedPrivKey := by
  unfold updateDevice
  rw [List.map_map]
  apply List.map_congr_left
  intro d _
  by_cases hd : d.pubkey = pk <;> simp [hd]

theorem addDevice_ok {devices s' : List Device} {d : Device}
    (h : addDevice devices d = Except.ok s') :
    s' = devices ++ [d] ∧
      ¬devices.any (fun dev => dev.deviceName = d.deviceName) = true ∧
      ¬devices.any (fun dev => dev.pubkey = d.pubkey) = true := by
  unfold addDevice at h
  by_cases h1 : devices.any (fun dev => dev.deviceName = d.deviceName) = true
  · rw [if_pos h1] at h
    exact absurd h (by simp)
  · rw [if_neg h1] at h
    by_cases h2 : devices.any (fun dev => dev.pubkey = d.pubkey) = true
    · rw [if_pos h2] at h
      exact absurd h (by simp)
    · rw [if_neg h2] at h
      simp only [Except.ok.injEq] at h
      exact ⟨h.symm, h1, h2⟩

/-- Claim C4, amended part: every registry state reachable from the empty
registry keeps `pubkey` unique — adds are guarded by the duplicate-pubkey
check, edits never change a `pubkey`, and deletes only remove records.
(The deviceName half of the claimed invariant fails; see the
counterexample.) -/
theorem registry_pubkey_nodup {s : List Device} (h : Reachable s) :
    (s.map Device.pubkey).Nodup := by
  induction h with
  | empty => simp
  | add hr hok ih =>
    obtain ⟨rfl, _, hpk⟩ := addDevice_ok hok
    rw [List.map_append]
    rw [List.nodup_append]
    refine ⟨ih, by simp, ?_⟩
    simp only [List.any_eq_true, decide_eq_true_eq, not_exists, not_and]
      at hpk
    intro a ha
    simp only [List.map_cons, List.map_nil, List.mem_singleton]
    intro hb
    rcases List.mem_map.mp ha with ⟨dev, hdev, rfl⟩
    exact hpk dev hdev hb
  | update pk newName newUrl hr ih =>
    rw [updateDevice_map_pubkey]
    exact ih
  | remove pk hr ih =>
    exact List.Nodup.sublist (List.Sublist.map Device.pubkey
      (List.filter_sublist _)) ih

/-- Concrete devices used to exhibit the update-breaks-name-uniqueness
counterexample. -/
def regDeviceA : Device :=
  { pubkey := "aa".data, deviceName := "alpha".data,
    relayUrl := "https://r".data, encryptedPrivKey := "e1".data }

def regDeviceB : Device :=
  { pubkey := "bb".data, deviceName := "beta".data,
    relayUrl := "https://r".data, encryptedPrivKey := "e2".data }

/-- Claim C4, counterexample: a reachable registry state in which two device
records share a `deviceName` — add two devices with distinct names and
pubkeys, then rename the second to the first's name through the edit
operation, which performs no name-uniqueness check. -/
theorem registry_name_uniqueness_breaks :
    Reachable (updateDevice [regDeviceA, regDeviceB] "bb".data
        "alpha".data "https://r".data) ∧
      ¬((updateDevice [regDeviceA, regDeviceB] "bb".data "alpha".data
        "https://r".data).map Device.deviceName).Nodup := by
  constructor
  · exact Reachable.update "bb".data "alpha".data "https://r".data
      (@Reachable.add [regDeviceA] [regDeviceA, regDeviceB] regDeviceB
        (@Reachable.add [] [regDeviceA] regDeviceA Reachable.empty
          (by rfl))
        (by rfl))
  · decide

/-- Claim C6: a `saveDevice` attempt whose `deviceName` duplicates an
existing record fails with the duplicate-name error, and one whose `pubkey`
duplicates an existing record (with a fresh name) fails with the
duplicate-pubkey error; in both cases the persisted collection is exactly
the loaded one. -/
theorem addDevice_duplicate_atomic (devices : List Device) (d : Device) :
    ((∃ dev ∈ devices, dev.deviceName = d.deviceName) →
      addDevice devices d = Except.error AddError.duplicateName ∧
        persistedAfterAdd devices d = devices) ∧
      ((¬∃ dev ∈ devices, dev.deviceName = d.deviceName) →
        (∃ dev ∈ devices, dev.pubkey = d.pubkey) →
        addDevice devices d = Except.error AddError.duplicatePubkey ∧
          persistedAfterAdd devices d = devices) := by
  constructor
  · intro hname
    have h1 : devices.any (fun dev => dev.deviceName = d.deviceName) =
        true := by
      simp only [List.any_eq_true, decide_eq_true_eq]
      exact hname
    have hadd : addDevice devices d = Except.error AddError.duplicateName := by
      unfold addDevice
      rw [if_pos h1]
    exact ⟨hadd, by unfold persistedAfterAdd; rw [hadd]⟩
  · intro hname hpk
    have h1 : ¬devices.any (fun dev => dev.deviceName = d.deviceName) =
        true := by
      simp only [List.any_eq_true, decide_eq_true_eq]
      exact hname
    have h2 : devices.any (fun dev => dev.pubkey = d.pubkey) = true := by
      simp only [List.any_eq_true, decide_eq_true_eq]
      exact hpk
    have hadd : addDevice devices d =
        Except.error AddError.duplicatePubkey := by
      unfold addDevice
      rw [if_neg h1, if_pos h2]
    exact ⟨hadd, by unfold persistedAfterAdd; rw [hadd]⟩

/-- Claim C9, counterexample: updating a pubkey that matches no record does
not fail — `saveChanges` reports success and writes the collection back
unchanged; the code has no `NotFoundError` path. -/
theorem update_notfound_counterexample :
    regDeviceA.pubkey ≠ "ff".data ∧
      saveChanges [regDeviceA] "ff".data "newname".data "https://r".data =
        UpdateResult.success [regDeviceA] ∧
      saveChanges [regDeviceA] "ff".data "newname".data "https://r".data ≠
        UpdateResult.notFound := by
  refine ⟨by decide, by decide, by decide⟩

/-- Claim C9, amended: an update whose pubkey matches no record succeeds as
a silent no-op (never a not-found failure), and an update with a matching
pubkey replaces exactly `deviceName` and `relayUrl` on the matching records,
preserving every `pubkey` and `encryptedPrivKey` and leaving non-matching
records untouched. -/
theorem updateDevice_spec (devices : List Device)
    (pk newName newUrl : List Char) :
    ((∀ dev ∈ devices, dev.pubkey ≠ pk) →
      saveChanges devices pk newName newUrl =
        UpdateResult.success devices) ∧
      (updateDevice devices pk newName newUrl).map Device.pubkey =
        devices.map Device.pubkey ∧
      (updateDevice devices pk newName newUrl).map Device.encryptedPrivKey =
        devices.map Device.encryptedPrivKey ∧
      (∀ (i : Nat) (dev : Device), devices[i]? = some dev →
        dev.pubkey ≠ pk →
        (updateDevice devices pk newName newUrl)[i]? = some dev) ∧
      (∀ (i : Nat) (dev : Device), devices[i]? = some dev →
        dev.pubkey = pk →
        (updateDevice devices pk newName newUrl)[i]? =
          some { dev with deviceName := newName, relayUrl := newUrl }) := by
  refine ⟨?_, updateDevice_map_pubkey devices pk newName newUrl,
    updateDevice_map_encryptedPrivKey devices pk newName newUrl, ?_, ?_⟩
  · intro hnone
    unfold saveChanges updateDevice
    congr 1
    conv_rhs => rw [← List.map_id devices]
    apply List.map_congr_left
    intro d hd
    rw [if_neg (hnone d hd)]
    rfl
  · intro i dev hget hne
    unfold updateDevice
    rw [List.getElem?_map, hget]
    simp only [Option.map_some']
    rw [if_neg hne]
  · intro i dev hget heq
    unfold updateDevice
    rw [List.getElem?_map, hget]
    simp only [Option.map_some']
    rw [if_pos heq]

/-! ## Status polling (index.tsx `checkDeviceStatus`) -/

/-- `Math.floor((now - lastFetched) / 1000)`: floored division matches
`Int.fdiv`. -/
def diffInSeconds (nowMs lastFetchedMs : Int) : Int :=
  Int.fdiv (nowMs - lastFetchedMs) 1000

/-- The classification in `checkDeviceStatus`: online iff the floored
second difference is at most 60. -/
def isOnline (nowMs lastFetchedMs : Int) : Bool :=
  diffInSeconds nowMs lastFetchedMs ≤ 60

/-- Claim C10: when the device was last active a whole number `d` of seconds
ago the classification is online exactly when `d ≤ 60`; in particular a
difference of 60 seconds is online and 61 seconds is offline. -/
theorem online_boundary (lastMs d : Int) :
    isOnline (lastMs + d * 1000) lastMs = decide (d ≤ 60) ∧
      isOnline (lastMs + 60 * 1000) lastMs = true ∧
      isOnline (lastMs + 61 * 1000) lastMs = false := by
  have hdiff : ∀ e : Int, diffInSeconds (lastMs + e * 1000) lastMs = e := by
    intro e
    unfold diffInSeconds
    have h1 : lastMs + e * 1000 - lastMs = e * 1000 := by ring
    rw [h1, Int.mul_fdiv_cancel e (by norm_num)]
  unfold isOnline
  rw [hdiff, hdiff, hdiff]
  refine ⟨rfl, by decide, by decide⟩

/-! ## Concrete instantiations exercising the theorems -/

instance (c : Char) : Decidable (isHexCharCode c) := by
  unfold isHexCharCode
  infer_instance

instance (c : Char) : Decidable (isDigitCharCode c) := by
  unfold isDigitCharCode
  infer_instance

theorem map_mod256_eq {b : List Nat} (h : ∀ x ∈ b, x < 256) :
    b.map (fun x => x % 256) = b := by
  conv_rhs => rw [← List.map_id b]
  apply List.map_congr_left
  intro x hx
  exact Nat.mod_eq_of_lt (h x hx)

/-- A block transformation satisfying the cipher interface: reduce each byte
mod 256 (identity on genuine byte blocks). -/
def testBlockE : List Nat → List Nat → List Nat :=
  fun _ b => b.map (fun x => x % 256)

def testBlockD : List Nat → List Nat → List Nat :=
  fun _ b => b

def testKdf : List Char → List Nat → Nat → Nat → List Nat :=
  fun _ _ _ _ => List.replicate 32 7

def testKeyHex : List Char :=
  "0101010101010101010101010101010101010101010101010101010101010101".data

def testPin : List Char := "123456".data

def testSalt : List Nat := List.replicate 16 0

def testIv : List Nat := List.replicate 16 0

theorem testBlock_hED : ∀ k b, b.length = 16 → (∀ x ∈ b, x < 256) →
    testBlockD k (testBlockE k b) = b := by
  intro k b _ hbytes
  exact map_mod256_eq hbytes

theorem testBlock_hElen : ∀ k b, b.length = 16 →
    (testBlockE k b).length = 16 := by
  intro k b hlen
  simp [testBlockE, hlen]

theorem testBlock_hEbyte : ∀ k b, b.length = 16 → (∀ x ∈ b, x < 256) →
    ∀ x ∈ testBlockE k b, x < 256 := by
  intro k b _ _ x hx
  rcases List.mem_map.mp hx with ⟨y, _, rfl⟩
  exact Nat.mod_lt y (by omega)

theorem vault_roundtrip_witness :
    decryptPrivateKey testBlockD testKdf
      (encryptPrivateKey testBlockE testKdf testKeyHex testPin testSalt
        testIv) testPin = some testKeyHex :=
  vault_roundtrip testBlockE testBlockD testKdf testKeyHex testPin testSalt
    testIv testBlock_hED testBlock_hElen testBlock_hEbyte
    (by decide) (by decide) (by decide) (by decide)
    (by decide) (by decide) (by decide) (by decide)

theorem blob_wire_format_witness :
    hexParse ((encryptPrivateKey testBlockE testKdf testKeyHex testPin
        testSalt testIv).take 32) = testSalt ∧
      b64Decode ((encryptPrivateKey testBlockE testKdf testKeyHex testPin
        testSalt testIv).drop 64) =
        vaultCiphertext testBlockE testKdf testKeyHex testPin testSalt
          testIv := by
  have h := blob_wire_format testBlockE testKdf testKeyHex testPin testSalt
    testIv testBlock_hElen testBlock_hEbyte (by decide) (by decide)
    (by decide) (by decide) (by decide)
  exact ⟨h.2.2.2.1, h.2.2.2.2.2⟩

theorem registry_pubkey_nodup_witness :
    (([regDeviceA] : List Device).map Device.pubkey).Nodup :=
  registry_pubkey_nodup
    (@Reachable.add [] [regDeviceA] regDeviceA Reachable.empty (by rfl))

/-- Candidate device sharing `regDeviceA`'s name but not its pubkey. -/
def dupNameDevice : Device :=
  { pubkey := "cc".data, deviceName := "alpha".data,
    relayUrl := "https://r".data, encryptedPrivKey := "e3".data }

theorem addDevice_duplicate_atomic_witness :
    addDevice [regDeviceA] dupNameDevice =
        Except.error AddError.duplicateName ∧
      persistedAfterAdd [regDeviceA] dupNameDevice = [regDeviceA] :=
  (addDevice_duplicate_atomic [regDeviceA] dupNameDevice).1 (by decide)

def testInstant : Instant :=
  { year := 2024, month := 1, day := 1, hour := 0, minute := 0,
    second := 0, ms := 0 }

theorem command_construction_witness :
    buildCommand "shutdown".data testInstant =
      some ("shutdown".data ++ '+' :: timestampDigits testInstant) :=
  (command_construction "shutdown".data testInstant (by decide) (by decide)
    (by decide) (by decide) (by decide) (by decide) (by decide)
    (by decide)).2.2.2

theorem updateDevice_spec_witness :
    saveChanges [regDeviceB] "ff".data "gamma".data "https://r2".data =
      UpdateResult.success [regDeviceB] :=
  (updateDevice_spec [regDeviceB] "ff".data "gamma".data
    "https://r2".data).1 (by decide)

end PowerTasker
